import Mathlib

/-!
Formal model of the contextmapper resolution engine (src/index.js).

JavaScript values are modelled by the inductive type JSVal; machine state
such as exceptions and unbounded recursion is made explicit: functions that
can raise a TypeError or recurse without bound return a result type with
explicit constructors for a thrown exception and for exhausted recursion
fuel.  Caller-supplied functions ("probes") are modelled by an environment
mapping a function identifier to a pure function from the single JS
argument object to a JS value.

String operations are implemented over character lists by structural
recursion so that every definition evaluates inside the kernel.
-/

/-- A JavaScript runtime value.  Numbers are modelled as integers (the
source only ever compares integers via parseInt); functions are opaque
identifiers resolved through an explicit environment. -/
inductive JSVal where
  | null
  | undefined
  | bool (b : Bool)
  | num (n : Int)
  | str (s : String)
  | arr (elems : List JSVal)
  | obj (fields : List (String × JSVal))
  | func (fid : Nat)

/-- Environment giving the behaviour of every function value: a pure map
from the single JS argument object to the returned value. -/
def FEnv := Nat → JSVal → JSVal

/-- Result of a computation that can throw a TypeError or exhaust the
recursion fuel (modelling the unbounded recursion of the source). -/
inductive Res where
  | ok (v : JSVal)
  | rthrow
  | diverge

/-- Result of a property-path lookup: value or thrown TypeError. -/
inductive GRes where
  | gok (v : JSVal)
  | gthrow

/- String utilities over character lists (structural, kernel-computable). -/

/-- Does the second list start with the first one? -/
def listStartsWith : List Char → List Char → Bool
  | [], _ => true
  | _ :: _, [] => false
  | p :: ps, c :: cs => p == c && listStartsWith ps cs

/-- Worker for splitting on a separator; fuel is at least the length of the
input so the fallback branch is never reached on intended calls. -/
def splitGo (sep : List Char) : Nat → List Char → List Char → List (List Char)
  | 0, cur, l => [cur.reverse ++ l]
  | _ + 1, cur, [] => [cur.reverse]
  | fuel + 1, cur, c :: cs =>
    if listStartsWith sep (c :: cs) then
      cur.reverse :: splitGo sep fuel [] ((c :: cs).drop sep.length)
    else
      splitGo sep fuel (c :: cur) cs

/-- JavaScript String.prototype.split with a non-empty string separator. -/
def sSplitOn (s sep : String) : List String :=
  (splitGo sep.data (s.data.length + 1) [] s.data).map String.mk

/-- Join a list of strings with a separator (inverse of sSplitOn). -/
def sIntercalate (sep : String) : List String → String
  | [] => ""
  | [x] => x
  | x :: y :: xs => x ++ sep ++ sIntercalate sep (y :: xs)

/-- Substring test; models criteriaValue.match(pat) for the literal
patterns ">=" and "<=" used by the source (no special regex characters). -/
def sContains (s pat : String) : Bool :=
  decide (1 < (sSplitOn s pat).length)

/-- JavaScript String.prototype.replace with a string pattern: only the
first occurrence is replaced, here by the empty string. -/
def sReplaceFirst (s pat : String) : String :=
  match sSplitOn s pat with
  | [] => s
  | [x] => x
  | x :: y :: xs => x ++ sIntercalate pat (y :: xs)

/-- Is the first character of the string the given one (s[0] === c)? -/
def firstCharIs (s : String) (c : Char) : Bool :=
  match s.data with
  | [] => false
  | c0 :: _ => c0 == c

/- Numeric coercions. -/

/-- Value of a list of decimal digit characters. -/
def digitsToNat (acc : Nat) : List Char → Nat
  | [] => acc
  | c :: cs => digitsToNat (10 * acc + (c.toNat - 48)) cs

/-- Value of a list of hexadecimal digit characters. -/
def hexDigitsToNat (acc : Nat) : List Char → Nat
  | [] => acc
  | c :: cs =>
    let d := if c.isDigit then c.toNat - 48
             else if 'a' ≤ c && c ≤ 'f' then c.toNat - 87
             else c.toNat - 55
    hexDigitsToNat (16 * acc + d) cs

/-- Leading whitespace skipped by JavaScript parseInt. -/
def skipWs : List Char → List Char
  | c :: cs =>
    if c == ' ' || c == '\t' || c == '\n' || c == '\r' || c == '\x0b' || c == '\x0c' then
      skipWs cs
    else c :: cs
  | [] => []

/-- Longest decimal-digit prefix value, none when there is no digit. -/
def decPrefixVal (l : List Char) : Option Nat :=
  let ds := l.takeWhile Char.isDigit
  if ds.isEmpty then none else some (digitsToNat 0 ds)

/-- Longest hexadecimal-digit prefix value, none when there is no digit. -/
def hexPrefixVal (l : List Char) : Option Nat :=
  let ds := l.takeWhile (fun c => c.isDigit || ('a' ≤ c && c ≤ 'f') || ('A' ≤ c && c ≤ 'F'))
  if ds.isEmpty then none else some (hexDigitsToNat 0 ds)

/-- JavaScript parseInt on a string (radix 10, with the 0x/0X hexadecimal
prefix); none models NaN. -/
def jsParseIntS (s : String) : Option Int :=
  let l := skipWs s.data
  let signed : Bool × List Char :=
    match l with
    | '-' :: rest => (true, rest)
    | '+' :: rest => (false, rest)
    | rest => (false, rest)
  let mag : Option Nat :=
    match signed.2 with
    | '0' :: 'x' :: rest => hexPrefixVal rest
    | '0' :: 'X' :: rest => hexPrefixVal rest
    | l2 => decPrefixVal l2
  match mag with
  | none => none
  | some n => some (if signed.1 then -(n : Int) else (n : Int))

/- JS value coercions and property access. -/

/- Deep stringification for Array.prototype.join, defined mutually with
the join itself.  Well-founded recursion: not kernel-computable, but no
claim evaluates the string form of a nested array. -/
mutual
/-- Stringification of one element inside Array.prototype.join
(null and undefined become the empty string). -/
def deepElem : JSVal → String
  | .null => ""
  | .undefined => ""
  | .bool b => cond b "true" "false"
  | .num n => toString n
  | .str s => s
  | .func _ => "function"
  | .obj _ => "[object Object]"
  | .arr xs => deepJoin xs

/-- Array.prototype.join "," over a list of JS values. -/
def deepJoin : List JSVal → String
  | [] => ""
  | [x] => deepElem x
  | x :: y :: xs => deepElem x ++ "," ++ deepJoin (y :: xs)
end

/-- JavaScript ToString coercion ("" + value).  The source text of a
function is not modelled (no claim observes it). -/
def jsToString : JSVal → String
  | .null => "null"
  | .undefined => "undefined"
  | .bool b => cond b "true" "false"
  | .num n => toString n
  | .str s => s
  | .func _ => "function"
  | .obj _ => "[object Object]"
  | .arr xs => deepJoin xs

/-- JavaScript truthiness. -/
def truthy : JSVal → Bool
  | .null => false
  | .undefined => false
  | .bool b => b
  | .num n => !(n == 0)
  | .str s => !(s == "")
  | .arr _ => true
  | .obj _ => true
  | .func _ => true

/-- Is the value null or undefined? -/
def isNullOrUndefined : JSVal → Bool
  | .null => true
  | .undefined => true
  | _ => false

/-- Strict equality (===) of a JS value against a string literal: true only
for the identical string value (no coercion). -/
def isStrEq (v : JSVal) (a : String) : Bool :=
  match v with
  | .str s => s == a
  | _ => false

/-- Is the value an array? -/
def isArr : JSVal → Bool
  | .arr _ => true
  | _ => false

/-- Is the value a function (typeof v === "function")? -/
def isFunction : JSVal → Bool
  | .func _ => true
  | _ => false

/-- Is the value a JS primitive (number, string, boolean, null, undefined)?
The in operator throws a TypeError on these. -/
def isJsPrimitive : JSVal → Bool
  | .num _ => true
  | .str _ => true
  | .bool _ => true
  | .null => true
  | .undefined => true
  | _ => false

/-- A canonical array index: the string must be exactly the decimal
representation of a natural number (no leading zeros except "0"). -/
def natOfCanonical (k : String) : Option Nat :=
  match k.data with
  | [] => none
  | c :: cs =>
    if (c :: cs).all Char.isDigit then
      if c == '0' && !cs.isEmpty then none
      else some (digitsToNat 0 (c :: cs))
    else none

/-- First field value for a key in an object's own fields, undefined when
absent (property read o[k] on an object). -/
def assocFields : List (String × JSVal) → String → JSVal
  | [], _ => .undefined
  | (k0, v0) :: rest, k => if k0 == k then v0 else assocFields rest k

/-- Property read o[k].  Own properties only: prototype-chain members
(e.g. "toString") and built-in function properties are not modelled; the
source never reads them. -/
def getProp (o : JSVal) (k : String) : JSVal :=
  match o with
  | .obj flds => assocFields flds k
  | .arr xs =>
    if k == "length" then .num xs.length
    else
      match natOfCanonical k with
      | some i => (xs.get? i).getD .undefined
      | none => .undefined
  | .str s =>
    if k == "length" then .num s.data.length
    else
      match natOfCanonical k with
      | some i =>
        match s.data.get? i with
        | some c => .str (String.mk [c])
        | none => .undefined
      | none => .undefined
  | _ => .undefined

/-- The JavaScript in operator (k in o): membership for objects and arrays,
a TypeError (none) on primitives, null and undefined.  Own properties
only, as for getProp. -/
def hasProp (o : JSVal) (k : String) : Option Bool :=
  match o with
  | .obj flds => some (flds.any (fun p => p.1 == k))
  | .arr xs =>
    some (k == "length" ||
      match natOfCanonical k with
      | some i => decide (i < xs.length)
      | none => false)
  | .func _ => some false
  | _ => none

/- Address Resolver: getNestedObjectProp (src/index.js lines 147-160). -/

/-- Scan word characters (regex \w) up to a closing bracket; returns the
word and the remainder, none when the bracketed group does not match. -/
def scanWordGo (acc : List Char) : List Char → Option (List Char × List Char)
  | [] => none
  | c :: cs =>
    if c == ']' then
      if acc.isEmpty then none else some (acc.reverse, cs)
    else if c.isAlphanum || c == '_' then scanWordGo (c :: acc) cs
    else none

/-- Worker for the bracket normalization s.replace(bracketed-word, dot-word)
applied globally, left to right, non-overlapping. -/
def normBGo : Nat → List Char → List Char
  | 0, l => l
  | _ + 1, [] => []
  | fuel + 1, c :: cs =>
    if c == '[' then
      match scanWordGo [] cs with
      | some (w, rest) => '.' :: (w ++ normBGo fuel rest)
      | none => c :: normBGo fuel cs
    else c :: normBGo fuel cs

/-- Strip one leading dot (s.replace of a leading dot by nothing). -/
def stripLeadingDot : List Char → List Char
  | '.' :: rest => rest
  | l => l

/-- Convert a path string to its segments: normalize bracket indexes to dot
segments, strip a leading dot, split on dots. -/
def parsePath (s : String) : List String :=
  sSplitOn (String.mk (stripLeadingDot (normBGo (s.data.length + 1) s.data))) "."

/-- The segment-following loop of getNestedObjectProp: the in operator
decides whether to descend; its TypeError on primitives propagates. -/
def walkPath : JSVal → List String → GRes
  | o, [] => .gok o
  | o, k :: ks =>
    match hasProp o k with
    | none => .gthrow
    | some false => .gok .undefined
    | some true => walkPath (getProp o k) ks

/-- getNestedObjectProp: dot/bracket path lookup into a nested value. -/
def getNestedObjectProp (o : JSVal) (s : String) : GRes :=
  walkPath o (parsePath s)

/- Criteria Comparator: doesCriteriaValueMatch (src/index.js 326-334). -/

/-- Greater-or-equal under parseInt coercion; any NaN operand fails. -/
def intGEOpt : Option Int → Option Int → Bool
  | some a, some b => decide (a ≥ b)
  | _, _ => false

/-- Less-or-equal under parseInt coercion; any NaN operand fails. -/
def intLEOpt : Option Int → Option Int → Bool
  | some a, some b => decide (a ≤ b)
  | _, _ => false

/-- parseInt applied to an arbitrary value (ToString then parseInt). -/
def jsParseInt (v : JSVal) : Option Int :=
  jsParseIntS (jsToString v)

/-- doesCriteriaValueMatch: if the criteria text contains a greater-equal
sign compare as integers, else likewise for less-equal, else compare the
value's string form for exact equality. -/
def doesCriteriaValueMatch (value : JSVal) (criteriaValue : String) : Bool :=
  if sContains criteriaValue ">=" then
    intGEOpt (jsParseInt value) (jsParseIntS (sReplaceFirst criteriaValue ">="))
  else if sContains criteriaValue "<=" then
    intLEOpt (jsParseInt value) (jsParseIntS (sReplaceFirst criteriaValue "<="))
  else
    jsToString value == criteriaValue

/- Function-Call Evaluator: parseFunctionSignature (src/index.js 184-253).
The anchored regex has groups functionName (one or more non-open-bracket
characters), args (any characters up to the first closing bracket after
it), property (one or more characters, greedy) and match (one or more
characters).  Equivalently: split at the first open bracket, at the first
closing bracket after it, and at the last colon of the remainder that
leaves both sides non-empty. -/

/-- Search, from the given split position downward, for the rightmost way
to cut the colon-joined pieces into a non-empty property and a non-empty
match expression (greediness of the property group). -/
def lcsGo (cs : List String) : Nat → Option (String × String)
  | 0 => none
  | j + 1 =>
    let p := sIntercalate ":" (cs.take (j + 1))
    let m := sIntercalate ":" (cs.drop (j + 1))
    if p != "" && m != "" then some (p, m) else lcsGo cs j

/-- Split a string at the last colon leaving non-empty sides. -/
def lastColonSplit (rest : String) : Option (String × String) :=
  let cs := sSplitOn rest ":"
  lcsGo cs (cs.length - 1)

/-- Parse of the remainder of a function-call criterion against the
anchored grammar; none models the "Invalid signature format" rejection.
Newlines (which the dot of the source regex would not match) are ignored:
no criterion in scope contains one. -/
def regexParse (s : String) : Option (String × String × String × String) :=
  match sSplitOn s "[" with
  | [] => none
  | [_] => none
  | fn :: r1 =>
    if fn == "" then none
    else
      match sSplitOn (sIntercalate "[" (r1.headD "" :: r1.tail)) "]" with
      | [] => none
      | [_] => none
      | args :: r2 =>
        match lastColonSplit (sIntercalate "]" (r2.headD "" :: r2.tail)) with
        | none => none
        | some (property, m) => some (fn, args, property, m)

/- Rule Resolution Engine: reconcileContextualValue (src/index.js 345-457)
with its collaborators getContextValue (123-134) and parseFunctionSignature
(184-253).  The mutual recursion of the source is broken by passing the
engine one recursion level down as an explicit parameter (resolve); the
fuel-indexed tie is made at reconcileContextualValue below. -/

/-- Outcome of evaluating one clause (one whitespace token) of a criteria
key: a successful comparison carrying the matched value, a failed
comparison (break), a bare-address short circuit that assigns the branch
value directly (break), or a propagated exception / fuel exhaustion. -/
inductive PartRes where
  | matched (v : JSVal)
  | broke
  | direct (v : JSVal)
  | pthrow
  | pdiverge

/-- Outcome of the clause loop of one criteria key: matched-parts count,
last parsed value, and the directly assigned final value if a bare-address
clause fired. -/
inductive EPRes where
  | ok (m : Nat) (pv : JSVal) (dOpt : Option JSVal)
  | ethrow
  | ediverge

/-- Outcome of the criteria-key loop: final (value, highest-count) state. -/
inductive KRes where
  | kok (st : JSVal × Nat)
  | kthrow
  | kdiverge

/-- Outcome of element-wise array resolution. -/
inductive LRes where
  | lok (vs : List JSVal)
  | lthrow
  | ldiverge

/-- Outcome of building an object field by field. -/
inductive HRes where
  | hok (flds : List (String × JSVal))
  | hthrow
  | hdiverge

/-- getContextValue body: look the address up in the context store; a
truthy value found is passed back through the engine (resolve), any other
value (undefined, null, 0, empty string, false) is returned unchanged. -/
def getContextValueAux (resolve : JSVal → JSVal → Res) (address : String)
    (contexts : JSVal) : Res :=
  match getNestedObjectProp contexts address with
  | .gthrow => .rthrow
  | .gok value => if truthy value then resolve value contexts else .ok value

/-- JS object property assignment on a field list: update in place when
the key exists, append otherwise. -/
def setField : List (String × JSVal) → String → JSVal → List (String × JSVal)
  | [], k, v => [(k, v)]
  | (k0, v0) :: rest, k, v =>
    if k0 == k then (k0, v) :: rest else (k0, v0) :: setField rest k v

/-- The argument-binding reduce of parseFunctionSignature: each item is
key:value; a value beginning with the context sigil is resolved through
getContextValue, a missing value is undefined, others are literal text. -/
def buildCallPropsAux (resolve : JSVal → JSVal → Res) (contexts : JSVal) :
    List String → List (String × JSVal) → HRes
  | [], acc => .hok acc
  | item :: rest, acc =>
    let kv := sSplitOn item ":"
    let k := kv.headD ""
    match kv.get? 1 with
    | none => buildCallPropsAux resolve contexts rest (setField acc k .undefined)
    | some vtxt =>
      if firstCharIs vtxt '@' then
        match getContextValueAux resolve vtxt contexts with
        | .rthrow => .hthrow
        | .diverge => .hdiverge
        | .ok v => buildCallPropsAux resolve contexts rest (setField acc k v)
      else buildCallPropsAux resolve contexts rest (setField acc k (.str vtxt))

/-- parseFunctionSignature body: locate the function container at the
address, parse the remainder against the grammar, bind arguments, invoke
the function, extract the compared property and compare; null models every
rejection path of the source. -/
def parseFunctionSignatureAux (fenv : FEnv) (resolve : JSVal → JSVal → Res)
    (signature : List String) (contexts : JSVal) : Res :=
  let address := signature.headD ""
  match getNestedObjectProp contexts address with
  | .gthrow => .rthrow
  | .gok pathToFunction =>
    if !truthy pathToFunction then .ok .null
    else
      let toParse := (signature.get? 1).getD ""
      match regexParse toParse with
      | none => .ok .null
      | some (functionName, args, property, expectedMatch) =>
        if functionName == "" then .ok .null
        else
          match getProp pathToFunction functionName with
          | .func fid =>
            match buildCallPropsAux resolve contexts
                (if args == "" then [] else sSplitOn args ",") [] with
            | .hthrow => .rthrow
            | .hdiverge => .diverge
            | .hok callProps =>
              let response := fenv fid (.obj callProps)
              match (if property == "" then GRes.gok response
                     else getNestedObjectProp response property) with
              | .gthrow => .rthrow
              | .gok finalValue =>
                if doesCriteriaValueMatch finalValue expectedMatch then
                  .ok finalValue
                else .ok .null
          | _ => .ok .null

/-- Evaluation of one clause of a criteria key (the body of the part loop
of reconcileContextualValue): a double-colon dispatches to the
function-call evaluator (success requires a truthy return); otherwise the
bare context value short-circuits when there is no colon, null/undefined
context values fail, and the match specification is split on the
OR-alternation with strict-equality membership tests. -/
def partStepAux (fenv : FEnv) (resolve : JSVal → JSVal → Res)
    (contexts : JSVal) (part : String) : PartRes :=
  let funcs := sSplitOn part "::"
  if decide (1 < funcs.length) then
    match parseFunctionSignatureAux fenv resolve funcs contexts with
    | .rthrow => .pthrow
    | .diverge => .pdiverge
    | .ok v => if truthy v then .matched v else .broke
  else
    let criteria := sSplitOn part ":"
    match getContextValueAux resolve (criteria.headD "") contexts with
    | .rthrow => .pthrow
    | .diverge => .pdiverge
    | .ok contextValue =>
      if criteria.length == 1 then .direct contextValue
      else if isNullOrUndefined contextValue then .broke
      else
        let alts := sSplitOn ((criteria.get? 1).getD "") "||"
        match contextValue with
        | .arr xs =>
          match xs.find? (fun e => alts.any (fun a => isStrEq e a)) with
          | some e => if truthy e then .matched contextValue else .broke
          | none => .broke
        | _ =>
          if alts.any (fun a => isStrEq contextValue a) then
            .matched contextValue
          else .broke

/-- The clause loop of one criteria key: clauses not beginning with the
sigil are skipped; a matched clause increments the count and records its
value; a failed clause or a bare-address clause stops the loop. -/
def evalPartsAux (fenv : FEnv) (resolve : JSVal → JSVal → Res)
    (contexts : JSVal) : List String → Nat → JSVal → EPRes
  | [], m, pv => .ok m pv none
  | part :: rest, m, pv =>
    if !firstCharIs part '@' then evalPartsAux fenv resolve contexts rest m pv
    else
      match partStepAux fenv resolve contexts part with
      | .matched v => evalPartsAux fenv resolve contexts rest (m + 1) v
      | .broke => .ok m pv none
      | .direct v => .ok m pv (some v)
      | .pthrow => .ethrow
      | .pdiverge => .ediverge

/-- The value a winning criteria key contributes: its declared value, or
the last matched value when the declared value is the sentinel string. -/
def branchValue (o : JSVal) (key : String) (pv : JSVal) : JSVal :=
  if isStrEq (getProp o key) "@value" then pv else getProp o key

/-- The criteria-key loop of reconcileContextualValue: evaluate each key's
clauses; a bare-address clause overwrites the running value immediately; a
fully matched key whose count reaches the running maximum overwrites the
value and the maximum. -/
def runKeysAux (fenv : FEnv) (resolve : JSVal → JSVal → Res)
    (o contexts : JSVal) : List String → JSVal × Nat → KRes
  | [], st => .kok st
  | key :: rest, (fv, h) =>
    match evalPartsAux fenv resolve contexts (sSplitOn key " ") 0 .null with
    | .ethrow => .kthrow
    | .ediverge => .kdiverge
    | .ok m pv dOpt =>
      let fv1 := match dOpt with
        | some dv => dv
        | none => fv
      if m == (sSplitOn key " ").length && decide (h ≤ m) then
        runKeysAux fenv resolve o contexts rest (branchValue o key pv, m)
      else
        runKeysAux fenv resolve o contexts rest (fv1, h)

/-- Element-wise resolution of an array value. -/
def reconcileListAux (resolve : JSVal → JSVal → Res) (contexts : JSVal) :
    List JSVal → LRes
  | [] => .lok []
  | x :: xs =>
    match resolve x contexts with
    | .rthrow => .lthrow
    | .diverge => .ldiverge
    | .ok v =>
      match reconcileListAux resolve contexts xs with
      | .lok vs => .lok (v :: vs)
      | e => e

/-- Should the computed value be parsed again: address strings beginning
with the sigil, plain objects and arrays are re-resolved. -/
def parseResponse : JSVal → Bool
  | .str s => firstCharIs s '@'
  | .obj _ => true
  | .arr _ => true
  | _ => false

/-- The tail of reconcileContextualValue: a falsy computed value collapses
to null, otherwise re-resolvable values are passed through the engine once
more and everything else is returned as is. -/
def finishValue (resolve : JSVal → JSVal → Res) (contexts fv : JSVal) : Res :=
  if !truthy fv then .ok .null
  else if parseResponse fv then resolve fv contexts
  else .ok fv

/-- The criteria keys of a rule object: every key except the reserved
fallback keys.  Field order models JS enumeration order (criteria keys
begin with the sigil, hence are never integer-like, so JS enumeration
order is insertion order). -/
def possibleKeysOf (flds : List (String × JSVal)) : List String :=
  (flds.map Prod.fst).filter (fun k => !(k == "default") && !(k == "value"))

/-- The seed value of a rule object: the default field if truthy else the
value field; a function seed is invoked with the single record argument
carrying the context store. -/
def seedOf (fenv : FEnv) (contexts o : JSVal) : JSVal :=
  let d := getProp o "default"
  let dv := if truthy d then d else getProp o "value"
  match dv with
  | .func fid => fenv fid (.obj [("contexts", contexts)])
  | _ => dv

/-- One level of reconcileContextualValue, parameterized by the engine one
recursion level down: falsy input collapses to null; arrays map; objects
run the criteria-key loop seeded from the fallback; strings run the same
loop with the string itself as the only key and seed; everything else
passes through. -/
def bodyStep (fenv : FEnv) (resolve : JSVal → JSVal → Res)
    (o contexts : JSVal) : Res :=
  if !truthy o then .ok .null
  else
    match o with
    | .arr xs =>
      match reconcileListAux resolve contexts xs with
      | .lok vs => .ok (.arr vs)
      | .lthrow => .rthrow
      | .ldiverge => .diverge
    | .obj flds =>
      match runKeysAux fenv resolve o contexts (possibleKeysOf flds)
          (seedOf fenv contexts o, 0) with
      | .kthrow => .rthrow
      | .kdiverge => .diverge
      | .kok (fv, _) => finishValue resolve contexts fv
    | .str s =>
      match runKeysAux fenv resolve o contexts [s] (o, 0) with
      | .kthrow => .rthrow
      | .kdiverge => .diverge
      | .kok (fv, _) => finishValue resolve contexts fv
    | _ => .ok o

/-- reconcileContextualValue with explicit recursion fuel; exhausted fuel
models the unbounded recursion of the source on cyclic data. -/
def reconcileContextualValue (fenv : FEnv) : Nat → JSVal → JSVal → Res
  | 0, _, _ => .diverge
  | fuel + 1, o, contexts =>
    bodyStep fenv (reconcileContextualValue fenv fuel) o contexts

/-- getContextValue at a given fuel level. -/
def getContextValue (fenv : FEnv) (fuel : Nat) (address : String)
    (contexts : JSVal) : Res :=
  getContextValueAux (reconcileContextualValue fenv fuel) address contexts

/-- parseFunctionSignature at a given fuel level. -/
def parseFunctionSignature (fenv : FEnv) (fuel : Nat)
    (signature : List String) (contexts : JSVal) : Res :=
  parseFunctionSignatureAux fenv (reconcileContextualValue fenv fuel)
    signature contexts

/- Tree Hoister: hoistContextualValues (src/index.js 50-63). -/

/-- Object.keys: own enumerable keys of a value. -/
def keysOf : JSVal → List String
  | .obj flds => flds.map Prod.fst
  | .arr xs => (List.range xs.length).map (fun i => toString i)
  | .str s => (List.range s.data.length).map (fun i => toString i)
  | _ => []

/-- Treatment of one property value by the hoister: a function value is
copied unchanged (never invoked, never resolved), every other value is
replaced by the engine's output. -/
def hoistValue (fenv : FEnv) (fuel : Nat) (contexts v : JSVal) : Res :=
  match v with
  | .func fid => .ok (.func fid)
  | _ => reconcileContextualValue fenv fuel v contexts

/-- The key-wise reduce of hoistContextualValues. -/
def hoistGo (fenv : FEnv) (fuel : Nat) (o contexts : JSVal) :
    List String → HRes
  | [] => .hok []
  | k :: ks =>
    match hoistValue fenv fuel contexts (getProp o k) with
    | .rthrow => .hthrow
    | .diverge => .hdiverge
    | .ok v2 =>
      match hoistGo fenv fuel o contexts ks with
      | .hok rest => .hok ((k, v2) :: rest)
      | e => e

/-- hoistContextualValues: a fresh object with the same keys, each
non-function value resolved through the engine (the trailing spread of the
source copies the accumulated object and is the identity here). -/
def hoistContextualValues (fenv : FEnv) (fuel : Nat) (o contexts : JSVal) :
    Res :=
  match o with
  | .null => .rthrow
  | .undefined => .rthrow
  | _ =>
    match hoistGo fenv fuel o contexts (keysOf o) with
    | .hok flds => .ok (.obj flds)
    | .hthrow => .rthrow
    | .hdiverge => .diverge

/- Claim-side definitions.  The selection description below follows the
words of the specification (branch selection by specificity with
last-wins tie-break) and is compared with the engine's key loop. -/

/-- Evaluation outcome of one criteria key, abstracted for the selection
fold: whether the key fully matched, its matched-parts count, and the
value the key would contribute if selected. -/
def outcomeOf (fenv : FEnv) (resolve : JSVal → JSVal → Res)
    (o contexts : JSVal) (key : String) : Bool × Nat × JSVal :=
  match evalPartsAux fenv resolve contexts (sSplitOn key " ") 0 .null with
  | .ok m pv _ => (m == (sSplitOn key " ").length, m, branchValue o key pv)
  | _ => (false, 0, .null)

/-- One step of the selection fold: a fully matched key whose count
reaches the running maximum overwrites the state. -/
def selStep (st : JSVal × Nat) (t : Bool × Nat × JSVal) : JSVal × Nat :=
  if t.1 && decide (st.2 ≤ t.2.1) then (t.2.2, t.2.1) else st

/-- Specification-side description: the greatest matched-parts count among
fully matching keys. -/
def bestCount (outs : List (Bool × Nat × JSVal)) : Nat :=
  outs.foldl (fun acc t => if t.1 then max acc t.2.1 else acc) 0

/-- Specification-side description: the last fully matching key whose
count attains the maximum (strictly more specific matches win regardless
of order; among equally specific matches the last enumerated wins). -/
def lastBest (outs : List (Bool × Nat × JSVal)) :
    Option (Bool × Nat × JSVal) :=
  ((outs.filter (fun t => t.1)).filter
    (fun t => t.2.1 == bestCount outs)).getLast?

/-- A criteria key with no bare-address clause: every clause beginning
with the sigil either dispatches to the function-call evaluator or carries
a colon and a match specification. -/
def noBareKey (key : String) : Bool :=
  (sSplitOn key " ").all (fun part =>
    !firstCharIs part '@' || decide (1 < (sSplitOn part "::").length) ||
      !((sSplitOn part ":").length == 1))

/-- A scalar literal that resolution leaves unchanged: a non-zero number,
true, or a non-empty string none of whose whitespace-separated tokens
begins with the sigil. -/
def safeScalar : JSVal → Bool
  | .num n => !(n == 0)
  | .bool b => b
  | .str s =>
    !(s == "") && !(firstCharIs s '@') &&
      (sSplitOn s " ").all (fun t => !(firstCharIs t '@'))
  | _ => false

/- Concrete instances used by witnesses and counterexamples. -/

/-- Function environment with no meaningful functions. -/
def fenv0 : FEnv := fun _ _ => JSVal.undefined

/-- Function environment whose every function returns the number five. -/
def fenv7 : FEnv := fun _ _ => JSVal.num 5

/-- Rule object with a two-clause criteria key followed by a bare-address
criteria key. -/
def exRuleC1 : JSVal :=
  .obj [("default", .str "D"), ("@x.a:1 @x.b:2", .str "SPECIFIC"),
        ("@y", .str "IGNORED")]

/-- Context store under which both clauses of the two-clause key of
exRuleC1 match and the bare address resolves to the string BARE. -/
def exCtxC1 : JSVal :=
  .obj [("@x", .obj [("a", .str "1"), ("b", .str "2")]),
        ("@y", .str "BARE")]

/-- Rule object selecting between three criteria keys of one and two
clauses. -/
def exRuleC1w : JSVal :=
  .obj [("default", .str "D"), ("@c.p:1", .str "ONE"),
        ("@c.p:1 @c.q:2", .str "TWO"), ("@c.q:2", .str "THREE")]

/-- Context store under which every clause of exRuleC1w matches. -/
def exCtxC1w : JSVal :=
  .obj [("@c", .obj [("p", .str "1"), ("q", .str "2")])]

/-- Rule object with a numeric-looking match specification. -/
def exRule6 : JSVal := .obj [("default", .str "D"), ("@ns.path:5", .str "W")]

/-- Context store whose value at the tested path is the number five. -/
def exCtx6 : JSVal := .obj [("@ns", .obj [("path", .num 5)])]

/-- Context store holding one string-valued namespace entry. -/
def exCtx6w : JSVal := .obj [("@a", .obj [("p", .str "y")])]

/-- Context store holding a function under the tested address. -/
def exCtx7 : JSVal := .obj [("@ns", .obj [("f", .func 0)])]

/-- Context store whose value at the tested path is the number zero. -/
def exCtx9 : JSVal := .obj [("@a", .obj [("x", .num 0)])]

/-- Context store whose value at the tested path is a rule object. -/
def exCtx9w : JSVal :=
  .obj [("@a", .obj [("x", .obj [("default", .str "D")])])]

/-- Per-entry contract of the Tree Hoister: the key is preserved, a
function value is copied unchanged, and any other value is replaced by the
engine's output. -/
def hoistEntry (fenv : FEnv) (fuel : Nat) (contexts : JSVal)
    (p q : String × JSVal) : Prop :=
  p.1 = q.1 ∧
    (isFunction p.2 = true → q.2 = p.2) ∧
    (isFunction p.2 = false →
      reconcileContextualValue fenv fuel p.2 contexts = .ok q.2)

/-- Template carrying a function-valued property and a rule object. -/
def exT3 : List (String × JSVal) :=
  [("f", .func 7), ("t", .obj [("default", .str "Hi")])]

/- Helper lemmas. -/

/-- Strict equality against a string succeeds exactly for that string. -/
lemma isStrEq_eq_true (v : JSVal) (a : String) :
    isStrEq v a = true ↔ v = .str a := by
  cases v <;> simp [isStrEq]

/-- Greater-or-equal with a NaN left operand always fails. -/
lemma intGEOpt_none_left (b : Option Int) : intGEOpt none b = false := by
  cases b <;> rfl

/-- Less-or-equal with a NaN left operand always fails. -/
lemma intLEOpt_none_left (b : Option Int) : intLEOpt none b = false := by
  cases b <;> rfl

/-- The property/match search only returns non-empty components. -/
lemma lcsGo_nonempty (cs : List String) :
    ∀ j p m, lcsGo cs j = some (p, m) → p ≠ "" ∧ m ≠ "" := by
  intro j
  induction j with
  | zero => intro p m h; exact absurd h (by simp [lcsGo])
  | succ j ih =>
    intro p m h
    unfold lcsGo at h
    dsimp only at h
    split at h
    · rename_i hcond
      simp only [Bool.and_eq_true] at hcond
      obtain ⟨h1, h2⟩ := hcond
      obtain ⟨rfl, rfl⟩ := Prod.mk.injEq .. ▸ Option.some.inj h
      exact ⟨bne_iff_ne.mp h1, bne_iff_ne.mp h2⟩
    · exact ih p m h

/-- C2: whenever the value computed after seeding and branch selection is
falsy, reconcileContextualValue returns null for the node; a rule object
therefore yields its selected outcome or null, never a missing result. -/
theorem c2_falsy_is_null (fenv : FEnv) (fuel : Nat) (contexts : JSVal)
    (flds : List (String × JSVal)) (fv : JSVal) (h : Nat)
    (hrun : runKeysAux fenv (reconcileContextualValue fenv fuel) (.obj flds)
      contexts (possibleKeysOf flds)
      (seedOf fenv contexts (.obj flds), 0) = .kok (fv, h))
    (hfalsy : truthy fv = false) :
    reconcileContextualValue fenv (fuel + 1) (.obj flds) contexts =
      .ok .null := by
  simp only [reconcileContextualValue, bodyStep]
  rw [show truthy (JSVal.obj flds) = true from rfl]
  simp only [Bool.not_true, Bool.false_eq_true, if_false]
  rw [hrun]
  simp only [finishValue, hfalsy, Bool.not_false, if_true]

/-- C2 witness: a rule object whose seed is the number zero resolves to
null. -/
theorem c2_falsy_is_null_witness :
    reconcileContextualValue fenv0 1 (.obj [("value", .num 0)]) (.obj []) =
      .ok .null :=
  c2_falsy_is_null fenv0 0 (.obj []) [("value", .num 0)] (.num 0) 0 rfl rfl

/-- C4: doesCriteriaValueMatch checks the greater-equal sign first, then
the less-equal sign, then exact string-form equality; range comparisons
coerce both sides with parseInt and a NaN operand never matches, so the
expression matching at-least-seventeen matches seventeen and twenty and
fails for sixteen and for non-numeric values. -/
theorem c4_comparator (v : JSVal) (c : String) :
    (sContains c ">=" = true →
      doesCriteriaValueMatch v c =
        intGEOpt (jsParseInt v) (jsParseIntS (sReplaceFirst c ">="))) ∧
    (sContains c ">=" = false → sContains c "<=" = true →
      doesCriteriaValueMatch v c =
        intLEOpt (jsParseInt v) (jsParseIntS (sReplaceFirst c "<="))) ∧
    (sContains c ">=" = false → sContains c "<=" = false →
      doesCriteriaValueMatch v c = (jsToString v == c)) ∧
    (jsParseInt v = none →
      (sContains c ">=" = true ∨ sContains c "<=" = true) →
      doesCriteriaValueMatch v c = false) ∧
    doesCriteriaValueMatch (.num 17) ">=17" = true ∧
    doesCriteriaValueMatch (.num 20) ">=17" = true ∧
    doesCriteriaValueMatch (.num 16) ">=17" = false := by
  refine ⟨?_, ?_, ?_, ?_, rfl, rfl, rfl⟩
  · intro h1
    simp only [doesCriteriaValueMatch, h1, if_true]
  · intro h1 h2
    simp only [doesCriteriaValueMatch, h1, h2, Bool.false_eq_true, if_false,
      if_true]
  · intro h1 h2
    simp only [doesCriteriaValueMatch, h1, h2, Bool.false_eq_true, if_false]
  · intro hn hc
    cases hge : sContains c ">=" with
    | true =>
      simp only [doesCriteriaValueMatch, hge, if_true, hn, intGEOpt_none_left]
    | false =>
      rcases hc with h | h
      · exact absurd h (by simp [hge])
      · simp only [doesCriteriaValueMatch, hge, h, Bool.false_eq_true,
          if_false, if_true, hn, intLEOpt_none_left]

/-- C4 witness: a non-numeric value never satisfies a range comparison. -/
theorem c4_comparator_witness :
    doesCriteriaValueMatch (.str "abc") ">=17" = false :=
  (c4_comparator (.str "abc") ">=17").2.2.2.1 rfl (Or.inl rfl)

/-- C5 (amended): path resolution normalizes bracket indexes, strips a
leading dot and follows the segments; a segment absent from the object
reached so far yields undefined without an error, but a segment applied to
a primitive value raises a TypeError through the in operator. -/
theorem c5_amended (o : JSVal) (s k : String) (ks : List String)
    (hp : parsePath s = k :: ks) :
    (∀ flds, o = .obj flds → flds.all (fun p => !(p.1 == k)) = true →
      getNestedObjectProp o s = .gok .undefined) ∧
    (isJsPrimitive o = true → getNestedObjectProp o s = .gthrow) ∧
    (hasProp o k = some true →
      getNestedObjectProp o s = walkPath (getProp o k) ks) := by
  unfold getNestedObjectProp
  rw [hp]
  refine ⟨?_, ?_, ?_⟩
  · rintro flds rfl hall
    cases hany : flds.any (fun p => p.1 == k) with
    | true =>
      obtain ⟨p, hpmem, hpk⟩ := List.any_eq_true.mp hany
      have := List.all_eq_true.mp hall p hpmem
      simp [hpk] at this
    | false =>
      simp only [walkPath, hasProp, hany]
  · intro hprim
    cases o <;> first
      | rfl
      | simp [isJsPrimitive] at hprim
  · intro hhas
    simp only [walkPath, hhas]

/-- C5 counterexample: descending through a primitive value raises a
TypeError instead of yielding undefined. -/
theorem c5_counterexample :
    getNestedObjectProp (.obj [("a", .num 5)]) "a.b" = .gthrow := rfl

/-- C5 witness: a first segment absent from the root object resolves to
undefined without an error. -/
theorem c5_amended_witness :
    getNestedObjectProp (.obj [("a", .num 1)]) "x.y" = .gok .undefined :=
  (c5_amended (.obj [("a", .num 1)]) "x.y" "x" ["y"] rfl).1
    [("a", .num 1)] rfl rfl

/-- C9 (amended): getContextValue resolves the address and passes a truthy
raw value back through the engine; falsy raw values, undefined but also
null, zero, the empty string and false, are returned unchanged without
re-resolution. -/
theorem c9_amended (fenv : FEnv) (fuel : Nat) (address : String)
    (contexts v : JSVal)
    (hfound : getNestedObjectProp contexts address = .gok v) :
    (truthy v = true →
      getContextValue fenv fuel address contexts =
        reconcileContextualValue fenv fuel v contexts) ∧
    (truthy v = false →
      getContextValue fenv fuel address contexts = .ok v) := by
  unfold getContextValue getContextValueAux
  rw [hfound]
  constructor <;> intro h1 <;> simp [h1]

/-- C9 counterexample: the defined raw value zero is returned unchanged,
although passing it through the engine would give null. -/
theorem c9_counterexample :
    getContextValue fenv0 5 "@a.x" exCtx9 = .ok (.num 0) ∧
    reconcileContextualValue fenv0 5 (.num 0) exCtx9 = .ok .null ∧
    Res.ok (JSVal.num 0) ≠ Res.ok JSVal.null := by
  refine ⟨rfl, rfl, ?_⟩
  intro h
  exact JSVal.noConfusion (Res.ok.inj h)

/-- C9 witness: a truthy context entry that is itself a rule object is
passed back through the engine. -/
theorem c9_amended_witness :
    getContextValue fenv0 3 "@a.x" exCtx9w =
      reconcileContextualValue fenv0 3 (.obj [("default", .str "D")])
        exCtx9w :=
  (c9_amended fenv0 3 "@a.x" exCtx9w (.obj [("default", .str "D")]) rfl).1 rfl

/-- C7 (amended): the implemented grammar requires a non-empty property
group, so a function-call remainder with nothing between the closing
bracket and the colon does not conform; parseFunctionSignature rejects it
and returns null without invoking any function, and the whole-return-value
comparison branch is unreachable. -/
theorem c7_amended :
    (∀ s fn args property m,
      regexParse s = some (fn, args, property, m) →
        property ≠ "" ∧ m ≠ "") ∧
    (∀ (fenv : FEnv) (resolve : JSVal → JSVal → Res) (contexts : JSVal)
      (addr t : String) (pf : JSVal),
      getNestedObjectProp contexts addr = .gok pf → truthy pf = true →
      regexParse t = none →
      parseFunctionSignatureAux fenv resolve [addr, t] contexts =
        .ok .null) := by
  constructor
  · intro s fn args property m h
    unfold regexParse at h
    split at h
    · exact absurd h (by simp)
    · exact absurd h (by simp)
    · split at h
      · exact absurd h (by simp)
      · split at h
        · exact absurd h (by simp)
        · exact absurd h (by simp)
        · split at h
          · exact absurd h (by simp)
          · rename_i hlcs
            obtain ⟨rfl, rfl, rfl, rfl⟩ :=
              Prod.mk.injEq .. ▸ Option.some.inj h
            exact lcsGo_nonempty _ _ _ _ hlcs
  · intro fenv resolve contexts addr t pf hfound htr hre
    unfold parseFunctionSignatureAux
    dsimp only
    rw [show ([addr, t] : List String).headD "" = addr from rfl, hfound]
    dsimp only
    rw [htr]
    simp only [Bool.not_true, Bool.false_eq_true, if_false]
    rw [show (([addr, t] : List String).get? 1).getD "" = t from rfl, hre]

/-- C7 counterexample: with an empty property the signature is rejected as
malformed and yields null, although the function's whole return value
would satisfy the match expression. -/
theorem c7_counterexample :
    parseFunctionSignature fenv7 5 ["@ns", "f[]:5"] exCtx7 = .ok .null ∧
    doesCriteriaValueMatch (fenv7 0 (.obj [])) "5" = true ∧
    regexParse "f[]:5" = none :=
  ⟨rfl, rfl, rfl⟩

/-- C7 witness: the rejection holds for every function environment and
resolver, so the function is never invoked. -/
theorem c7_amended_witness :
    parseFunctionSignatureAux fenv7 (reconcileContextualValue fenv7 3)
      ["@ns", "f[]:5"] exCtx7 = .ok .null :=
  c7_amended.2 fenv7 (reconcileContextualValue fenv7 3) exCtx7 "@ns" "f[]:5"
    (.obj [("f", .func 0)]) rfl rfl rfl

/-- The scalar arm of the clause match: the branch matches exactly when
the context value is itself one of the alternative strings. -/
lemma scalarMatch_iff (cv : JSVal) (alts : List String) :
    ((if alts.any (fun a => isStrEq cv a) then PartRes.matched cv
      else PartRes.broke) = PartRes.matched cv ↔
      ∃ a ∈ alts, cv = .str a) := by
  cases hany : alts.any (fun a => isStrEq cv a) with
  | false =>
    simp only [Bool.false_eq_true, if_false]
    constructor
    · intro hco; exact absurd hco (by simp)
    · rintro ⟨a, ha, rfl⟩
      have h2 : alts.any (fun a0 => isStrEq (JSVal.str a) a0) = true :=
        List.any_eq_true.mpr ⟨a, ha, by simp [isStrEq]⟩
      rw [hany] at h2
      exact absurd h2 (by simp)
  | true =>
    simp only [if_true]
    constructor
    · intro _
      obtain ⟨a, ha, hsa⟩ := List.any_eq_true.mp hany
      exact ⟨a, ha, (isStrEq_eq_true cv a).mp hsa⟩
    · intro _; trivial

/-- Reduction of a plain clause whose context value is an array: the
clause outcome is decided by the first element strictly equal to one of
the alternatives. -/
lemma partStep_arr_eq (fenv : FEnv) (resolve : JSVal → JSVal → Res)
    (contexts : JSVal) (part addr spec : String) (xs : List JSVal)
    (hnof : sSplitOn part "::" = [part])
    (hsplit : sSplitOn part ":" = [addr, spec])
    (hcv : getContextValueAux resolve addr contexts = .ok (.arr xs)) :
    partStepAux fenv resolve contexts part =
      (match xs.find? (fun e =>
          (sSplitOn spec "||").any (fun a => isStrEq e a)) with
        | some e =>
          if truthy e then PartRes.matched (.arr xs) else PartRes.broke
        | none => PartRes.broke) := by
  unfold partStepAux
  rw [hnof, hsplit]
  dsimp only
  rw [show ([addr, spec] : List String).headD "" = addr from rfl, hcv]
  rfl

/-- Reduction of a plain clause whose context value is neither an array
nor null nor undefined: the clause outcome is strict-equality membership
of the context value among the alternatives. -/
lemma partStep_plain_eq (fenv : FEnv) (resolve : JSVal → JSVal → Res)
    (contexts : JSVal) (part addr spec : String) (cv : JSVal)
    (hnof : sSplitOn part "::" = [part])
    (hsplit : sSplitOn part ":" = [addr, spec])
    (hcv : getContextValueAux resolve addr contexts = .ok cv)
    (hnn : isNullOrUndefined cv = false)
    (hna : isArr cv = false) :
    partStepAux fenv resolve contexts part =
      (if (sSplitOn spec "||").any (fun a => isStrEq cv a) then
        PartRes.matched cv
       else PartRes.broke) := by
  unfold partStepAux
  rw [hnof, hsplit]
  dsimp only
  rw [show ([addr, spec] : List String).headD "" = addr from rfl, hcv]
  cases cv
  case arr => simp [isArr] at hna
  case null => simp [isNullOrUndefined] at hnn
  case undefined => simp [isNullOrUndefined] at hnn
  all_goals rfl

/-- C6 (amended): a plain clause whose match specification is split on the
OR-alternation matches an array context value exactly when the first
element strictly equal to one of the alternatives exists and is truthy,
and matches a non-array context value exactly when that value is itself
one of the alternative strings (strict equality, no string coercion). -/
theorem c6_amended (fenv : FEnv) (resolve : JSVal → JSVal → Res)
    (contexts : JSVal) (part addr spec : String) (cv : JSVal)
    (hnof : sSplitOn part "::" = [part])
    (hsplit : sSplitOn part ":" = [addr, spec])
    (hcv : getContextValueAux resolve addr contexts = .ok cv)
    (hnn : isNullOrUndefined cv = false) :
    (∀ xs, cv = .arr xs →
      (partStepAux fenv resolve contexts part = .matched cv ↔
        ∃ e, xs.find? (fun e =>
            (sSplitOn spec "||").any (fun a => isStrEq e a)) = some e ∧
          truthy e = true)) ∧
    (isArr cv = false →
      (partStepAux fenv resolve contexts part = .matched cv ↔
        ∃ a ∈ sSplitOn spec "||", cv = .str a)) := by
  constructor
  · rintro xs rfl
    rw [partStep_arr_eq fenv resolve contexts part addr spec xs hnof hsplit
      hcv]
    cases hfind : xs.find? (fun e =>
        (sSplitOn spec "||").any (fun a => isStrEq e a)) with
    | none => simp
    | some e =>
      cases hte : truthy e with
      | false => simp [hte]
      | true => simp [hte]
  · intro hna
    rw [partStep_plain_eq fenv resolve contexts part addr spec cv hnof hsplit
      hcv hnn hna]
    exact scalarMatch_iff _ _

/-- C6 counterexample: the string form of the numeric context value five
is among the alternatives, yet the clause does not match (strict equality)
and the default is selected. -/
theorem c6_counterexample :
    reconcileContextualValue fenv0 10 exRule6 exCtx6 = .ok (.str "D") ∧
    getContextValue fenv0 9 "@ns.path" exCtx6 = .ok (.num 5) ∧
    (sSplitOn "5" "||").contains (jsToString (.num 5)) = true ∧
    JSVal.str "D" ≠ JSVal.str "W" := by
  refine ⟨rfl, rfl, rfl, ?_⟩
  intro h
  exact absurd (JSVal.str.inj h) (by decide)

/-- C6 witness: the clause with alternatives x and y matches the store
value y. -/
theorem c6_amended_witness :
    partStepAux fenv0 (reconcileContextualValue fenv0 3) exCtx6w
      "@a.p:x||y" = .matched (.str "y") :=
  ((c6_amended fenv0 (reconcileContextualValue fenv0 3) exCtx6w
      "@a.p:x||y" "@a.p" "x||y" (.str "y") rfl rfl rfl rfl).2 rfl).mpr
    ⟨"y", by decide, rfl⟩

/- Machinery for branch selection (C1, C10). -/

/-- Appending one outcome updates the best count by a conditional max. -/
lemma bestCount_concat (outs : List (Bool × Nat × JSVal))
    (t : Bool × Nat × JSVal) :
    bestCount (outs ++ [t]) =
      if t.1 then max (bestCount outs) t.2.1 else bestCount outs := by
  unfold bestCount
  rw [List.foldl_append]
  rfl

/-- The selection fold computes the value of the last fully matching key
attaining the greatest matched-parts count, and that count. -/
lemma foldl_selStep_spec (fv0 : JSVal) (outs : List (Bool × Nat × JSVal)) :
    outs.foldl selStep (fv0, 0) =
      ((match lastBest outs with
        | none => fv0
        | some t => t.2.2), bestCount outs) := by
  induction outs using List.reverseRecOn with
  | nil => rfl
  | append_singleton outs t ih =>
    rw [List.foldl_append, ih]
    simp only [List.foldl_cons, List.foldl_nil, selStep]
    by_cases ht : t.1 = true
    · by_cases hle : bestCount outs ≤ t.2.1
      · have hbc : bestCount (outs ++ [t]) = t.2.1 := by
          rw [bestCount_concat]
          simp [ht, Nat.max_eq_right hle]
        have hlb : lastBest (outs ++ [t]) = some t := by
          unfold lastBest
          rw [hbc, List.filter_append, List.filter_append]
          simp [ht]
        rw [if_pos (by simp [ht, hle]), hlb, hbc]
      · have hlt : t.2.1 < bestCount outs := Nat.lt_of_not_le hle
        have hbc : bestCount (outs ++ [t]) = bestCount outs := by
          rw [bestCount_concat]
          simp [ht, Nat.max_eq_left (Nat.le_of_lt hlt)]
        have hlb : lastBest (outs ++ [t]) = lastBest outs := by
          unfold lastBest
          rw [hbc, List.filter_append, List.filter_append]
          have hne : (t.2.1 == bestCount outs) = false := by
            simp [Nat.ne_of_lt hlt]
          simp [ht, hne]
        rw [if_neg (by simp [hle]), hlb, hbc]
    · have ht' : t.1 = false := by simpa using ht
      have hbc : bestCount (outs ++ [t]) = bestCount outs := by
        rw [bestCount_concat]
        simp [ht']
      have hlb : lastBest (outs ++ [t]) = lastBest outs := by
        unfold lastBest
        rw [hbc, List.filter_append]
        simp [ht']
      rw [if_neg (by simp [ht']), hlb, hbc]

/-- When every key of the list evaluates without a thrown error, without
fuel exhaustion and without a bare-address assignment, the key loop is the
pure selection fold over the key outcomes. -/
lemma runKeysAux_eq_foldl (fenv : FEnv) (resolve : JSVal → JSVal → Res)
    (o contexts : JSVal) :
    ∀ (keys : List String) (st : JSVal × Nat),
      (∀ k ∈ keys, ∃ m pv, evalPartsAux fenv resolve contexts
        (sSplitOn k " ") 0 .null = .ok m pv none) →
      runKeysAux fenv resolve o contexts keys st =
        .kok (List.foldl selStep st
          (keys.map (outcomeOf fenv resolve o contexts))) := by
  intro keys
  induction keys with
  | nil => intro st _; rfl
  | cons k rest ih =>
    intro st hclean
    obtain ⟨m, pv, heval⟩ := hclean k (List.mem_cons_self k rest)
    obtain ⟨fv, h⟩ := st
    have hout : outcomeOf fenv resolve o contexts k =
        (m == (sSplitOn k " ").length, m, branchValue o k pv) := by
      unfold outcomeOf
      rw [heval]
    unfold runKeysAux
    rw [heval]
    dsimp only
    rw [List.map_cons, List.foldl_cons, hout]
    by_cases hc : (m == (sSplitOn k " ").length && decide (h ≤ m)) = true
    · rw [if_pos hc, ih _ (fun k' hk' => hclean k' (List.mem_cons_of_mem k hk'))]
      have : selStep (fv, h) (m == (sSplitOn k " ").length, m,
          branchValue o k pv) = (branchValue o k pv, m) := by
        unfold selStep
        rw [if_pos hc]
      rw [this]
    · rw [if_neg hc, ih _ (fun k' hk' => hclean k' (List.mem_cons_of_mem k hk'))]
      have : selStep (fv, h) (m == (sSplitOn k " ").length, m,
          branchValue o k pv) = (fv, h) := by
        unfold selStep
        rw [if_neg hc]
      rw [this]


/-- A clause that dispatches to the function-call evaluator or carries a
match specification never assigns the branch value directly. -/
lemma partStep_not_direct (fenv : FEnv) (resolve : JSVal → JSVal → Res)
    (contexts : JSVal) (p : String)
    (hnd : 1 < (sSplitOn p "::").length ∨ (sSplitOn p ":").length ≠ 1)
    (v : JSVal) :
    partStepAux fenv resolve contexts p ≠ .direct v := by
  intro hcon
  unfold partStepAux at hcon
  dsimp only at hcon
  by_cases hfl : decide (1 < (sSplitOn p "::").length) = true
  · rw [if_pos hfl] at hcon
    split at hcon
    · exact PartRes.noConfusion hcon
    · exact PartRes.noConfusion hcon
    · split at hcon <;> exact PartRes.noConfusion hcon
  · have hcl : (sSplitOn p ":").length ≠ 1 := by
      rcases hnd with h1 | h1
      · exact absurd (decide_eq_true h1) hfl
      · exact h1
    rw [if_neg hfl] at hcon
    split at hcon
    · exact PartRes.noConfusion hcon
    · exact PartRes.noConfusion hcon
    · split at hcon
      · rename_i hlen
        exact hcl (beq_iff_eq.mp hlen)
      · split at hcon
        · exact PartRes.noConfusion hcon
        · split at hcon
          · split at hcon
            · split at hcon <;> exact PartRes.noConfusion hcon
            · exact PartRes.noConfusion hcon
          · split at hcon <;> exact PartRes.noConfusion hcon

/-- Under no-bare-clause keys the clause loop never reports a direct
assignment. -/
lemma evalParts_no_direct (fenv : FEnv) (resolve : JSVal → JSVal → Res)
    (contexts : JSVal) :
    ∀ (parts : List String) (m : Nat) (pv : JSVal),
      (∀ part ∈ parts, firstCharIs part '@' = true →
        (1 < (sSplitOn part "::").length ∨ (sSplitOn part ":").length ≠ 1)) →
      ∀ m' pv' d, evalPartsAux fenv resolve contexts parts m pv =
        .ok m' pv' d → d = none := by
  intro parts
  induction parts with
  | nil =>
    intro m pv _ m' pv' d h
    unfold evalPartsAux at h
    injection h with _ _ h3
    exact h3.symm
  | cons p rest ih =>
    intro m pv hnb m' pv' d h
    unfold evalPartsAux at h
    by_cases hat : firstCharIs p '@' = true
    · simp only [hat, Bool.not_true, Bool.false_eq_true, if_false] at h
      cases hps : partStepAux fenv resolve contexts p with
      | matched v0 =>
        rw [hps] at h
        exact ih (m + 1) v0
          (fun q hq => hnb q (List.mem_cons_of_mem p hq)) m' pv' d h
      | broke =>
        rw [hps] at h
        injection h with _ _ h3
        exact h3.symm
      | direct v0 =>
        exact absurd hps
          (partStep_not_direct fenv resolve contexts p
            (hnb p (List.mem_cons_self p rest) hat) v0)
      | pthrow => rw [hps] at h; exact EPRes.noConfusion h
      | pdiverge => rw [hps] at h; exact EPRes.noConfusion h
    · have hat' : firstCharIs p '@' = false := by simpa using hat
      simp only [hat', Bool.not_false, if_true] at h
      exact ih m pv (fun q hq => hnb q (List.mem_cons_of_mem p hq)) m' pv' d h

/-- Unpacking of the executable no-bare-clause test. -/
lemma noBareKey_spec (key : String) (h : noBareKey key = true) :
    ∀ part ∈ sSplitOn key " ", firstCharIs part '@' = true →
      (1 < (sSplitOn part "::").length ∨ (sSplitOn part ":").length ≠ 1) := by
  intro part hp hat
  have h2 := List.all_eq_true.mp h part hp
  rw [hat] at h2
  simp only [Bool.not_true, Bool.false_or, Bool.or_eq_true,
    decide_eq_true_eq, Bool.not_eq_true'] at h2
  rcases h2 with h3 | h3
  · exact Or.inl h3
  · exact Or.inr (by simpa using h3)

/-- C1 (amended): for criteria keys free of bare-address clauses whose
clause loops complete, the key loop realizes exactly the specification's
selection rule: the selected branch is the last fully matching key whose
matched-parts count attains the maximum, so a strictly more specific full
match wins regardless of enumeration order and ties go to the key
enumerated last; when no key fully matches, the seeded value stands. -/
theorem c1_amended (fenv : FEnv) (resolve : JSVal → JSVal → Res)
    (o contexts : JSVal) (keys : List String) (fv0 : JSVal)
    (hbare : ∀ k ∈ keys, noBareKey k = true)
    (hcomplete : ∀ k ∈ keys, ∃ m pv d,
      evalPartsAux fenv resolve contexts (sSplitOn k " ") 0 .null =
        .ok m pv d) :
    runKeysAux fenv resolve o contexts keys (fv0, 0) =
      .kok ((match lastBest (keys.map (outcomeOf fenv resolve o contexts)) with
        | none => fv0
        | some t => t.2.2),
        bestCount (keys.map (outcomeOf fenv resolve o contexts))) := by
  have hclean : ∀ k ∈ keys, ∃ m pv,
      evalPartsAux fenv resolve contexts (sSplitOn k " ") 0 .null =
        .ok m pv none := by
    intro k hk
    obtain ⟨m, pv, d, hev⟩ := hcomplete k hk
    have hd : d = none :=
      evalParts_no_direct fenv resolve contexts _ 0 .null
        (noBareKey_spec k (hbare k hk)) m pv d hev
    exact ⟨m, pv, hd ▸ hev⟩
  rw [runKeysAux_eq_foldl fenv resolve o contexts keys (fv0, 0) hclean,
    foldl_selStep_spec]

/-- C1 witness: with one-clause and two-clause keys all matching, the
two-clause key in the middle wins with count two. -/
theorem c1_amended_witness :
    runKeysAux fenv0 (reconcileContextualValue fenv0 3) exRuleC1w exCtxC1w
      ["@c.p:1", "@c.p:1 @c.q:2", "@c.q:2"] (JSVal.str "D", 0) =
      .kok (.str "TWO", 2) := by
  rw [c1_amended fenv0 (reconcileContextualValue fenv0 3) exRuleC1w exCtxC1w
    ["@c.p:1", "@c.p:1 @c.q:2", "@c.q:2"] (.str "D") (by decide) ?hc]
  case hc =>
    intro k hk
    fin_cases hk
    · exact ⟨1, .str "1", none, rfl⟩
    · exact ⟨2, .str "2", none, rfl⟩
    · exact ⟨1, .str "2", none, rfl⟩
  rfl

/-- C1 counterexample: the unique fully matching two-clause key carries
the value SPECIFIC, yet a bare-address key enumerated later determines the
result BARE, so the claim's selection rule fails on rule objects with
bare-address clauses. -/
theorem c1_counterexample :
    reconcileContextualValue fenv0 10 exRuleC1 exCtxC1 = .ok (.str "BARE") ∧
    evalPartsAux fenv0 (reconcileContextualValue fenv0 9) exCtxC1
      (sSplitOn "@x.a:1 @x.b:2" " ") 0 .null = .ok 2 (.str "2") none ∧
    getProp exRuleC1 "@x.a:1 @x.b:2" = .str "SPECIFIC" ∧
    JSVal.str "BARE" ≠ JSVal.str "SPECIFIC" := by
  refine ⟨rfl, rfl, rfl, ?_⟩
  intro h
  exact absurd (JSVal.str.inj h) (by decide)

/-- The matched-parts count grows by at most the number of sigil-prefixed
clauses. -/
lemma evalParts_count_le (fenv : FEnv) (resolve : JSVal → JSVal → Res)
    (contexts : JSVal) :
    ∀ (parts : List String) (m : Nat) (pv : JSVal) m' pv' d,
      evalPartsAux fenv resolve contexts parts m pv = .ok m' pv' d →
      m' ≤ m + parts.countP (fun p => firstCharIs p '@') := by
  intro parts
  induction parts with
  | nil =>
    intro m pv m' pv' d h
    unfold evalPartsAux at h
    injection h with h1 _ _
    omega
  | cons p rest ih =>
    intro m pv m' pv' d h
    unfold evalPartsAux at h
    rw [List.countP_cons]
    by_cases hat : firstCharIs p '@' = true
    · simp only [hat, Bool.not_true, Bool.false_eq_true, if_false] at h
      simp only [hat, if_true]
      cases hps : partStepAux fenv resolve contexts p with
      | matched v0 =>
        rw [hps] at h
        have := ih (m + 1) v0 m' pv' d h
        omega
      | broke =>
        rw [hps] at h
        injection h with h1 _ _
        omega
      | direct v0 =>
        rw [hps] at h
        injection h with h1 _ _
        omega
      | pthrow => rw [hps] at h; exact EPRes.noConfusion h
      | pdiverge => rw [hps] at h; exact EPRes.noConfusion h
    · have hat' : firstCharIs p '@' = false := by simpa using hat
      simp only [hat', Bool.not_false, if_true] at h
      simp only [hat', Bool.false_eq_true, if_false]
      have := ih m pv m' pv' d h
      omega

/-- A member failing the predicate makes the count strictly smaller than
the length. -/
lemma countP_lt_length_of_mem_not {α : Type} (p : α → Bool) :
    ∀ (l : List α) (a : α), a ∈ l → p a = false →
      l.countP p < l.length := by
  intro l
  induction l with
  | nil => intro a ha _; exact absurd ha (List.not_mem_nil a)
  | cons b rest ih =>
    intro a ha hpa
    have hle := @List.countP_le_length α p rest
    rw [List.countP_cons]
    rcases List.mem_cons.mp ha with rfl | ha'
    · simp only [hpa]
      simp only [Bool.false_eq_true, if_false, List.length_cons]
      omega
    · have := ih a ha' hpa
      by_cases hb : p b = true
      · simp only [hb, if_true, List.length_cons]
        omega
      · simp [hb]
        omega

/-- C10: a criteria key containing a whitespace token that does not begin
with the sigil can never reach a full match: the token is skipped without
contributing to the matched-parts count, the count stays strictly below
the token count, and processing such a key never raises the running
highest-count state. -/
theorem c10_non_at_token (fenv : FEnv) (resolve : JSVal → JSVal → Res)
    (o contexts : JSVal) (key part : String)
    (hmem : part ∈ sSplitOn key " ")
    (hat : firstCharIs part '@' = false) :
    (∀ m pv d, evalPartsAux fenv resolve contexts (sSplitOn key " ") 0
      .null = .ok m pv d → m ≠ (sSplitOn key " ").length) ∧
    (∀ fv h st, runKeysAux fenv resolve o contexts [key] (fv, h) =
      .kok st → st.2 = h) := by
  have hlt : ∀ m pv d, evalPartsAux fenv resolve contexts (sSplitOn key " ")
      0 .null = .ok m pv d → m < (sSplitOn key " ").length := by
    intro m pv d hev
    have h1 := evalParts_count_le fenv resolve contexts _ 0 .null m pv d hev
    have h2 := countP_lt_length_of_mem_not
      (fun p => firstCharIs p '@') (sSplitOn key " ") part hmem hat
    omega
  constructor
  · intro m pv d hev
    exact Nat.ne_of_lt (hlt m pv d hev)
  · intro fv h st hrun
    unfold runKeysAux at hrun
    cases hev : evalPartsAux fenv resolve contexts (sSplitOn key " ") 0
        .null with
    | ethrow => rw [hev] at hrun; exact KRes.noConfusion hrun
    | ediverge => rw [hev] at hrun; exact KRes.noConfusion hrun
    | ok m pv d =>
      rw [hev] at hrun
      dsimp only at hrun
      have hne : (m == (sSplitOn key " ").length) = false := by
        simpa using Nat.ne_of_lt (hlt m pv d hev)
      rw [hne] at hrun
      simp only [Bool.false_and, Bool.false_eq_true, if_false] at hrun
      cases d with
      | none =>
        injection hrun with h2
        rw [← h2]
      | some dv =>
        injection hrun with h2
        rw [← h2]

/-- C10 witness: the two-token key whose first token is not sigil-prefixed
matches only one of its two tokens. -/
theorem c10_non_at_token_witness :
    (1 : Nat) ≠ (sSplitOn "foo @x.a:1" " ").length :=
  (c10_non_at_token fenv0 (reconcileContextualValue fenv0 3) exRuleC1
    exCtxC1 "foo @x.a:1" "foo" (by decide) rfl).1 1 (.str "1") none rfl

/- Machinery for the Tree Hoister (C3, C8). -/

/-- With distinct keys, looking a member's key up in the field list gives
that member's value. -/
lemma assocFields_of_mem :
    ∀ (flds : List (String × JSVal)) (p : String × JSVal),
      (flds.map Prod.fst).Nodup → p ∈ flds → assocFields flds p.1 = p.2 := by
  intro flds
  induction flds with
  | nil => intro p _ hp; exact absurd hp (List.not_mem_nil p)
  | cons q rest ih =>
    intro p hnd hp
    rw [List.map_cons] at hnd
    rcases List.mem_cons.mp hp with rfl | hp'
    · unfold assocFields
      simp
    · have hq : q.1 ∉ rest.map Prod.fst := (List.nodup_cons.mp hnd).1
      have hne : (q.1 == p.1) = false := by
        have : q.1 ≠ p.1 := by
          intro he
          exact hq (he ▸ List.mem_map_of_mem Prod.fst hp')
        simpa using this
      unfold assocFields
      rw [hne]
      simp only [Bool.false_eq_true, if_false]
      exact ih p (List.nodup_cons.mp hnd).2 hp'

/-- The hoist step applied to the outcome of the key list equals the
entry-wise contract. -/
lemma hoistGo_spec (fenv : FEnv) (fuel : Nat) (contexts big : JSVal) :
    ∀ (flds flds' : List (String × JSVal)),
      (∀ p ∈ flds, getProp big p.1 = p.2) →
      hoistGo fenv fuel big contexts (flds.map Prod.fst) = .hok flds' →
      List.Forall₂ (hoistEntry fenv fuel contexts) flds flds' := by
  intro flds
  induction flds with
  | nil =>
    intro flds' _ h
    unfold hoistGo at h
    injection h with h1
    rw [← h1]
    exact List.Forall₂.nil
  | cons p rest ih =>
    intro flds' hlook h
    rw [List.map_cons] at h
    unfold hoistGo at h
    rw [hlook p (List.mem_cons_self p rest)] at h
    cases hres : hoistValue fenv fuel contexts p.2 with
    | rthrow => rw [hres] at h; exact HRes.noConfusion h
    | diverge => rw [hres] at h; exact HRes.noConfusion h
    | ok v2 =>
      rw [hres] at h
      cases hrest : hoistGo fenv fuel big contexts (rest.map Prod.fst) with
      | hthrow => rw [hrest] at h; exact HRes.noConfusion h
      | hdiverge => rw [hrest] at h; exact HRes.noConfusion h
      | hok r =>
        rw [hrest] at h
        injection h with h1
        rw [← h1]
        refine List.Forall₂.cons ⟨rfl, ?_, ?_⟩
          (ih r (fun q hq => hlook q (List.mem_cons_of_mem p hq)) hrest)
        · intro hf
          unfold hoistValue at hres
          cases hpf : p.2 with
          | func fid =>
            rw [hpf] at hres
            dsimp only at hres
            injection hres with h2
            rw [← h2]
          | null => rw [hpf] at hf; simp [isFunction] at hf
          | undefined => rw [hpf] at hf; simp [isFunction] at hf
          | bool b => rw [hpf] at hf; simp [isFunction] at hf
          | num n => rw [hpf] at hf; simp [isFunction] at hf
          | str s => rw [hpf] at hf; simp [isFunction] at hf
          | arr xs => rw [hpf] at hf; simp [isFunction] at hf
          | obj fl => rw [hpf] at hf; simp [isFunction] at hf
        · intro hf
          unfold hoistValue at hres
          cases hpf : p.2 with
          | func fid => rw [hpf] at hf; simp [isFunction] at hf
          | null => rw [hpf] at hres; dsimp only at hres; exact hres
          | undefined => rw [hpf] at hres; dsimp only at hres; exact hres
          | bool b => rw [hpf] at hres; dsimp only at hres; exact hres
          | num n => rw [hpf] at hres; dsimp only at hres; exact hres
          | str s => rw [hpf] at hres; dsimp only at hres; exact hres
          | arr xs => rw [hpf] at hres; dsimp only at hres; exact hres
          | obj fl => rw [hpf] at hres; dsimp only at hres; exact hres

/-- The entry-wise contract preserves the key list. -/
lemma forall2_hoistEntry_map_fst (fenv : FEnv) (fuel : Nat)
    (contexts : JSVal) :
    ∀ (flds flds' : List (String × JSVal)),
      List.Forall₂ (hoistEntry fenv fuel contexts) flds flds' →
      flds'.map Prod.fst = flds.map Prod.fst := by
  intro flds flds' h
  induction h with
  | nil => rfl
  | cons hpq _ ih =>
    rw [List.map_cons, List.map_cons, ih, hpq.1]

/-- C3: when hoistContextualValues returns a value on an object template
with distinct keys, that value is an object with exactly the template's
top-level keys in the same order, every function-valued property copied
unchanged (never invoked, never resolved) and every other property value
replaced by the engine's output. -/
theorem c3_hoist_shape (fenv : FEnv) (fuel : Nat) (contexts : JSVal)
    (flds : List (String × JSVal)) (v : JSVal)
    (hnd : (flds.map Prod.fst).Nodup)
    (hok : hoistContextualValues fenv fuel (.obj flds) contexts = .ok v) :
    ∃ flds', v = .obj flds' ∧ flds'.map Prod.fst = flds.map Prod.fst ∧
      List.Forall₂ (hoistEntry fenv fuel contexts) flds flds' := by
  unfold hoistContextualValues at hok
  cases hgo : hoistGo fenv fuel (.obj flds) contexts
      (keysOf (.obj flds)) with
  | hthrow => rw [hgo] at hok; exact Res.noConfusion hok
  | hdiverge => rw [hgo] at hok; exact Res.noConfusion hok
  | hok flds' =>
    rw [hgo] at hok
    injection hok with h1
    have hf2 : List.Forall₂ (hoistEntry fenv fuel contexts) flds flds' :=
      hoistGo_spec fenv fuel contexts (.obj flds) flds flds'
        (fun p hp => assocFields_of_mem flds p hnd hp) hgo
    exact ⟨flds', h1.symm,
      forall2_hoistEntry_map_fst fenv fuel contexts flds flds' hf2, hf2⟩

/-- C3 witness: a template with a function-valued property and a rule
object hoists to the same keys, the function untouched and the rule
resolved. -/
theorem c3_hoist_shape_witness :
    ∃ flds', (JSVal.obj [("f", JSVal.func 7), ("t", JSVal.str "Hi")]) =
        .obj flds' ∧
      flds'.map Prod.fst = exT3.map Prod.fst ∧
      List.Forall₂ (hoistEntry fenv0 2 (.obj [])) exT3 flds' :=
  c3_hoist_shape fenv0 2 (.obj []) exT3
    (.obj [("f", JSVal.func 7), ("t", JSVal.str "Hi")]) (by decide) rfl

/- Machinery for idempotence on safe scalars (C8). -/

/-- Splitting never yields the empty list (like the JS split). -/
lemma sSplitOn_ne_nil (s sep : String) : sSplitOn s sep ≠ [] := by
  unfold sSplitOn
  have hgo : ∀ (fuel : Nat) (cur l : List Char),
      splitGo sep.data fuel cur l ≠ [] := by
    intro fuel
    induction fuel with
    | zero => intro cur l; simp [splitGo]
    | succ f ih =>
      intro cur l
      cases l with
      | nil => simp [splitGo]
      | cons c cs =>
        unfold splitGo
        by_cases hp : listStartsWith sep.data (c :: cs) = true
        · simp [hp]
        · have hp' : listStartsWith sep.data (c :: cs) = false := by
            simpa using hp
          simp only [hp', Bool.false_eq_true, if_false]
          exact ih (c :: cur) cs
  intro h
  exact hgo _ _ _ (List.map_eq_nil_iff.mp h)

/-- A clause list with no sigil-prefixed token is skipped entirely. -/
lemma evalParts_skip_all (fenv : FEnv) (resolve : JSVal → JSVal → Res)
    (contexts : JSVal) :
    ∀ (parts : List String) (m : Nat) (pv : JSVal),
      (∀ p ∈ parts, firstCharIs p '@' = false) →
      evalPartsAux fenv resolve contexts parts m pv = .ok m pv none := by
  intro parts
  induction parts with
  | nil => intro m pv _; rfl
  | cons p rest ih =>
    intro m pv hall
    unfold evalPartsAux
    rw [hall p (List.mem_cons_self p rest)]
    simp only [Bool.not_false, if_true]
    exact ih m pv (fun q hq => hall q (List.mem_cons_of_mem p hq))

/-- Resolution leaves a safe scalar unchanged. -/
lemma reconcile_safeScalar (fenv : FEnv) (fuel : Nat) (contexts : JSVal)
    (v : JSVal) (hs : safeScalar v = true) :
    reconcileContextualValue fenv (fuel + 1) v contexts = .ok v := by
  cases v with
  | null => simp [safeScalar] at hs
  | undefined => simp [safeScalar] at hs
  | arr xs => simp [safeScalar] at hs
  | obj fl => simp [safeScalar] at hs
  | func fid => simp [safeScalar] at hs
  | num n =>
    simp only [reconcileContextualValue, bodyStep]
    rw [show truthy (JSVal.num n) = true from hs]
    simp only [Bool.not_true, Bool.false_eq_true, if_false]
  | bool b =>
    simp only [reconcileContextualValue, bodyStep]
    rw [show truthy (JSVal.bool b) = true from hs]
    simp only [Bool.not_true, Bool.false_eq_true, if_false]
  | str s =>
    have hs' := hs
    unfold safeScalar at hs'
    simp only [Bool.and_eq_true] at hs'
    obtain ⟨⟨h1, h2⟩, h3⟩ := hs'
    have h1' : truthy (JSVal.str s) = true := h1
    have h2' : firstCharIs s '@' = false := by simpa using h2
    have h3' : ∀ p ∈ sSplitOn s " ", firstCharIs p '@' = false := by
      intro p hp
      have := List.all_eq_true.mp h3 p hp
      simpa using this
    have hlen : (0 == (sSplitOn s " ").length) = false := by
      cases hc : sSplitOn s " " with
      | nil => exact absurd hc (sSplitOn_ne_nil s " ")
      | cons a l => rfl
    simp only [reconcileContextualValue, bodyStep]
    rw [h1']
    simp only [Bool.not_true, Bool.false_eq_true, if_false]
    have hrk : runKeysAux fenv (reconcileContextualValue fenv fuel)
        (.str s) contexts [s] (.str s, 0) = .kok (.str s, 0) := by
      unfold runKeysAux
      rw [evalParts_skip_all fenv (reconcileContextualValue fenv fuel)
        contexts (sSplitOn s " ") 0 .null h3']
      dsimp only
      rw [hlen]
      simp only [Bool.false_and, Bool.false_eq_true, if_false]
      rfl
    rw [hrk]
    dsimp only
    unfold finishValue
    rw [h1']
    simp only [Bool.not_true, Bool.false_eq_true, if_false]
    rw [show parseResponse (JSVal.str s) = false from h2']
    simp only [Bool.false_eq_true, if_false]

/-- The hoister leaves a safe scalar property value unchanged. -/
lemma hoistValue_safeScalar (fenv : FEnv) (fuel : Nat) (contexts : JSVal)
    (v : JSVal) (hs : safeScalar v = true) :
    hoistValue fenv (fuel + 1) contexts v = .ok v := by
  cases v with
  | func fid => simp [safeScalar] at hs
  | null => simp [safeScalar] at hs
  | undefined => simp [safeScalar] at hs
  | arr xs => simp [safeScalar] at hs
  | obj fl => simp [safeScalar] at hs
  | num n => exact reconcile_safeScalar fenv fuel contexts (.num n) hs
  | bool b => exact reconcile_safeScalar fenv fuel contexts (.bool b) hs
  | str s => exact reconcile_safeScalar fenv fuel contexts (.str s) hs

/-- The hoist loop is the identity on fields of safe scalars. -/
lemma hoistGo_id (fenv : FEnv) (fuel : Nat) (contexts big : JSVal) :
    ∀ flds : List (String × JSVal),
      (∀ p ∈ flds, getProp big p.1 = p.2) →
      (∀ p ∈ flds, safeScalar p.2 = true) →
      hoistGo fenv (fuel + 1) big contexts (flds.map Prod.fst) =
        .hok flds := by
  intro flds
  induction flds with
  | nil => intro _ _; rfl
  | cons p rest ih =>
    intro hlook hsafe
    rw [List.map_cons]
    unfold hoistGo
    rw [hlook p (List.mem_cons_self p rest),
      hoistValue_safeScalar fenv fuel contexts p.2
        (hsafe p (List.mem_cons_self p rest)),
      ih (fun q hq => hlook q (List.mem_cons_of_mem p hq))
        (fun q hq => hsafe q (List.mem_cons_of_mem p hq))]

/-- C8 (amended): on an object template with distinct keys all of whose
values are safe scalar literals (non-zero numbers, true, or non-empty
strings containing no sigil-prefixed whitespace token), hoisting is the
identity. -/
theorem c8_amended (fenv : FEnv) (fuel : Nat) (contexts : JSVal)
    (flds : List (String × JSVal))
    (hnd : (flds.map Prod.fst).Nodup)
    (hsafe : ∀ p ∈ flds, safeScalar p.2 = true) :
    hoistContextualValues fenv (fuel + 1) (.obj flds) contexts =
      .ok (.obj flds) := by
  unfold hoistContextualValues
  rw [show keysOf (JSVal.obj flds) = flds.map Prod.fst from rfl,
    hoistGo_id fenv fuel contexts (.obj flds) flds
      (fun p hp => assocFields_of_mem flds p hnd hp) hsafe]

/-- C8 counterexample: the literal-only templates with value zero and with
a string containing a sigil-prefixed token do not hoist to themselves. -/
theorem c8_counterexample :
    hoistContextualValues fenv0 3 (.obj [("x", .num 0)]) (.obj []) =
      .ok (.obj [("x", .null)]) ∧
    JSVal.obj [("x", JSVal.null)] ≠ JSVal.obj [("x", JSVal.num 0)] ∧
    hoistContextualValues fenv0 3 (.obj [("x", .str "a @b")])
      (.obj [("@b", .str "Z")]) = .ok (.obj [("x", .str "Z")]) ∧
    JSVal.obj [("x", JSVal.str "Z")] ≠ JSVal.obj [("x", JSVal.str "a @b")] := by
  refine ⟨rfl, by simp, rfl, by simp⟩

/-- C8 witness: a two-field template of safe scalar literals hoists to
itself. -/
theorem c8_amended_witness :
    hoistContextualValues fenv0 1 (.obj [("a", .num 2), ("b", .str "hi")])
      (.obj []) = .ok (.obj [("a", .num 2), ("b", .str "hi")]) :=
  c8_amended fenv0 0 (.obj []) [("a", .num 2), ("b", .str "hi")]
    (by decide) (by decide)
